import Mathlib

/-!
Verification development for the text-buffer core of the vis editor
(`text.h`).  The repository ships only the header `src/text.h`; the
implementation `text.c` is not part of the sources, so every operation
below is modelled from the specification (piece table over append-only
blocks, a revision tree with a current pointer, marks that reference
pieces by identity, a 1-based line index and a byte/char iterator).
Bytes are `Nat`, positions are `Nat`, and fallible operations return a
`Bool` alongside the unchanged-or-updated state.
-/

/-- `EPOS = (size_t)-1` on a 64-bit platform: the failure sentinel for
position-valued functions. -/
def EPOS : Nat := 2 ^ 64 - 1

/-- Modelled from the spec: a piece is a triple `(block, offset, length)`
denoting `block.bytes[offset, offset+length)`.  `hp = true` selects the
growable heap block, `hp = false` the read-only mmap block.  `pid` is the
piece's stable identity (the spec lets marks reference a piece's stable
memory address; we use a freshly allocated numeric id instead). -/
structure Piece where
  pid : Nat
  hp : Bool
  off : Nat
  len : Nat
deriving DecidableEq, Repr

/-- Modelled from the spec: a change is a single piece-list splice
recorded as `(position, old_pieces, new_pieces)`. -/
structure Change where
  pos : Nat
  old_pieces : List Piece
  new_pieces : List Piece
deriving DecidableEq, Repr

/-- Modelled from the spec: a revision is a node of the history tree.
Revisions live in an array ordered by creation (`seq` = index = `time`,
a monotonic clock).  `pieces` is the snapshot of the piece list at this
revision (§2 calls the revision graph "a tree of immutable snapshots of
the piece list"), `changes` the splices that transform the parent's list
into it, `closed` says whether the revision has been snapshotted, and
`recentChild` is the "active child" used by redo (the last child that
was ever current). -/
structure Revision where
  parent : Option Nat
  changes : List Change
  pieces : List Piece
  closed : Bool
  recentChild : Option Nat
  time : Nat
deriving DecidableEq, Repr

instance : Inhabited Revision := ⟨⟨none, [], [], true, none, 0⟩⟩

/-- Modelled from the spec: the text buffer.  `orig` is the read-only
mmap block holding the loaded file, `hbuf` the single append-only heap
block receiving inserted bytes, `revs` the revision tree (indexed by
creation order), `cur` the current revision and `nextPid` the fresh
piece-identity counter. -/
structure Text where
  orig : List Nat
  hbuf : List Nat
  revs : List Revision
  cur : Nat
  nextPid : Nat
deriving DecidableEq, Repr

/-- Sum of the lengths of a piece list: the spec defines the file size as
the sum of piece lengths. -/
def sumLen (ps : List Piece) : Nat := (ps.map Piece.len).sum

/-- The current revision (default dummy when `cur` is out of range,
which never happens for reachable states). -/
def curRev (t : Text) : Revision := (t.revs.get? t.cur).getD default

/-- Modelled from the spec: `text_load` creates a buffer populated with
the given file content (the bytes the mmap block would hold); an absent
or empty file yields an empty buffer.  The root revision has one piece
spanning the whole file, or none when the content is empty. -/
def text_load (content : List Nat) : Text :=
  { orig := content
    hbuf := []
    revs := [⟨none, [], if content = [] then [] else [⟨0, false, 0, content.length⟩],
              true, none, 0⟩]
    cur := 0
    nextPid := 1 }

/-- `text_size`: the size in bytes of the whole text, i.e. the sum of the
current revision's piece lengths. -/
def text_size (t : Text) : Nat := sumLen (curRev t).pieces

/-- The bytes a piece denotes inside its block. -/
def pieceBytes (orig hbuf : List Nat) (p : Piece) : List Nat :=
  ((if p.hp then hbuf else orig).drop p.off).take p.len

/-- The current file content: concatenation of the current revision's
piece contents in list order. -/
def text_content (t : Text) : List Nat :=
  (curRev t).pieces.flatMap (pieceBytes t.orig t.hbuf)

/-- Well-formedness: the current pointer is in range and every piece of
every revision has positive length and stays inside its block. -/
def WF (t : Text) : Prop :=
  t.cur < t.revs.length ∧
    ∀ r ∈ t.revs, ∀ p ∈ r.pieces,
      0 < p.len ∧ p.off + p.len ≤ (if p.hp then t.hbuf else t.orig).length

instance (t : Text) : Decidable (WF t) := by unfold WF; infer_instance

/-! ### Piece-list splicing -/

/-- Modelled from the spec: insertion splice.  Walk to `pos`; on a piece
boundary insert `N` between the neighbours (no gratuitous split),
otherwise split the covering piece into two fresh pieces around `N`.
Returns `(new list, old_pieces, new_pieces, next fresh id)`. -/
def insSplice (ps : List Piece) (pos : Nat) (N : Piece) (fresh : Nat) :
    List Piece × List Piece × List Piece × Nat :=
  match ps with
  | [] => ([N], [], [N], fresh)
  | p :: rest =>
    if pos = 0 then (N :: p :: rest, [], [N], fresh)
    else if p.len ≤ pos then
      let s := insSplice rest (pos - p.len) N fresh
      (p :: s.1, s.2.1, s.2.2.1, s.2.2.2)
    else
      let pl : Piece := ⟨fresh, p.hp, p.off, pos⟩
      let pr : Piece := ⟨fresh + 1, p.hp, p.off + pos, p.len - pos⟩
      (pl :: N :: pr :: rest, [p], [pl, N, pr], fresh + 2)

/-- Modelled from the spec: tail part of a deletion, removing `len` bytes
from the front of `ps`; whole pieces are dropped and the last partially
covered piece is trimmed into a fresh piece. -/
def delTail (ps : List Piece) (len fresh : Nat) :
    List Piece × List Piece × List Piece × Nat :=
  match ps with
  | [] => ([], [], [], fresh)
  | p :: rest =>
    if len = 0 then (p :: rest, [], [], fresh)
    else if p.len ≤ len then
      let s := delTail rest (len - p.len) fresh
      (s.1, p :: s.2.1, s.2.2.1, s.2.2.2)
    else
      let tr : Piece := ⟨fresh, p.hp, p.off + len, p.len - len⟩
      (tr :: rest, [p], [tr], fresh + 1)

/-- Modelled from the spec: deletion splice for `[pos, pos+len)`.
`P_first` and `P_last` are trimmed (zero-length trims omitted), whole
pieces strictly between them are dropped. -/
def delSplice (ps : List Piece) (pos len fresh : Nat) :
    List Piece × List Piece × List Piece × Nat :=
  match ps with
  | [] => ([], [], [], fresh)
  | p :: rest =>
    if p.len ≤ pos then
      let s := delSplice rest (pos - p.len) len fresh
      (p :: s.1, s.2.1, s.2.2.1, s.2.2.2)
    else if pos + len ≤ p.len then
      let lft : List Piece := if pos = 0 then [] else [⟨fresh, p.hp, p.off, pos⟩]
      let rgt : List Piece :=
        if pos + len = p.len then [] else [⟨fresh + 1, p.hp, p.off + pos + len, p.len - pos - len⟩]
      (lft ++ rgt ++ rest, [p], lft ++ rgt, fresh + 2)
    else
      let lft : List Piece := if pos = 0 then [] else [⟨fresh, p.hp, p.off, pos⟩]
      let s := delTail rest (len - (p.len - pos)) (fresh + 1)
      (lft ++ s.1, p :: s.2.1, lft ++ s.2.2.1, s.2.2.2)

/-- Extend, by `d` bytes, the piece with identity `pid` that ends exactly
at file position `pos`: the coalescing step merging a contiguous append
into the previous one ("the two appends merge into one piece"). -/
def extendLastAt (ps : List Piece) (pos pid d : Nat) : Option (List Piece) :=
  match ps with
  | [] => none
  | p :: rest =>
    if pos = p.len ∧ p.pid = pid then some ({ p with len := p.len + d } :: rest)
    else if pos ≤ p.len then none
    else (extendLastAt rest (pos - p.len) pid d).map (p :: ·)

/-! ### Revision bookkeeping -/

/-- Replace revision `i` by `g` applied to it. -/
def modifyRev (t : Text) (i : Nat) (g : Revision → Revision) : Text :=
  { t with revs := t.revs.set i (g ((t.revs.get? i).getD default)) }

/-- Modelled from the spec: `text_snapshot` closes the current revision
if it is open and has at least one change; otherwise it is a no-op.  A
fresh child is created lazily by the next edit. -/
def commitRev (t : Text) : Text :=
  if (curRev t).closed = false ∧ (curRev t).changes ≠ [] then
    modifyRev t t.cur (fun r => { r with closed := true })
  else t

def text_snapshot (t : Text) : Text := commitRev t

/-- Move the current pointer to revision `i`, recording `i` as its
parent's most recently current child (the redo "active child" rule). -/
def setCurrent (t : Text) (i : Nat) : Text :=
  match ((t.revs.get? i).getD default).parent with
  | none => { t with cur := i }
  | some p => modifyRev { t with cur := i } p (fun r => { r with recentChild := some i })

/-- Position of the leftmost byte affected by a revision's changes
(`EPOS` when there are none). -/
def leftmostPos (r : Revision) : Nat :=
  r.changes.foldl (fun a c => Nat.min a c.pos) EPOS

/-- Record a freshly built splice: close the current revision and create
an open child holding the change and the new piece list, making it
current. -/
def recordChange (t : Text) (hbuf' : List Nat) (ps : List Piece) (c : Change)
    (fresh : Nat) : Text :=
  let t1 := commitRev t
  let idx := t1.revs.length
  let r : Revision := ⟨some t1.cur, [c], ps, false, none, idx⟩
  setCurrent { t1 with hbuf := hbuf', revs := t1.revs ++ [r], nextPid := fresh } idx

/-- Modelled from the spec: coalescing (§4.2).  If the current revision
is open and its most recent change ends with a piece `N'` referencing
bytes contiguous with the new append in the heap block, and `pos` equals
`N'.pos + N'.length`, the append merges into `N'` instead of creating a
second change.  Returns `none` when coalescing does not apply. -/
def coalesceTry (t : Text) (pos : Nat) (data : List Nat) : Option Text :=
  if (curRev t).closed then none
  else
    match (curRev t).changes.getLast? with
    | none => none
    | some c =>
      match c.new_pieces.getLast? with
      | none => none
      | some np =>
        if np.hp = true ∧ np.off + np.len = t.hbuf.length ∧
            pos = c.pos + sumLen c.new_pieces then
          match extendLastAt (curRev t).pieces pos np.pid data.length with
          | none => none
          | some ps' =>
            some (modifyRev { t with hbuf := t.hbuf ++ data } t.cur
              (fun rr =>
                ⟨rr.parent,
                 rr.changes.dropLast ++
                   [⟨c.pos, c.old_pieces,
                     c.new_pieces.dropLast ++ [⟨np.pid, np.hp, np.off, np.len + data.length⟩]⟩],
                 ps', rr.closed, rr.recentChild, rr.time⟩))
        else none

/-! ### Edit operations -/

/-- Modelled from the spec: `text_insert` inserts `data` at `pos`, which
has to be in `[0, text_size]`; the bytes are appended to the heap block,
the piece list is spliced, and the change is recorded on a new open
child revision unless it coalesces with the directly preceding append
(§4.2, §8 scenarios 2, 3 and 5: each non-coalescing edit is its own
undoable unit). -/
def text_insert (t : Text) (pos : Nat) (data : List Nat) : Text × Bool :=
  if text_size t < pos then (t, false)
  else if data = [] then (t, true)
  else
    match coalesceTry t pos data with
    | some t' => (t', true)
    | none =>
      let N : Piece := ⟨t.nextPid, true, t.hbuf.length, data.length⟩
      let s := insSplice (curRev t).pieces pos N (t.nextPid + 1)
      (recordChange t (t.hbuf ++ data) s.1 ⟨pos, s.2.1, s.2.2.1⟩ s.2.2.2, true)

/-- Modelled from the spec: `text_delete` removes `[pos, pos+len)`.
Positions outside `[0, size]` fail, `len = 0` is a successful no-op, a
range reaching past the end fails; the splice is recorded on a new open
child revision. -/
def text_delete (t : Text) (pos len : Nat) : Text × Bool :=
  if text_size t < pos then (t, false)
  else if len = 0 then (t, true)
  else if text_size t < pos + len then (t, false)
  else
    let s := delSplice (curRev t).pieces pos len t.nextPid
    (recordChange t t.hbuf s.1 ⟨pos, s.2.1, s.2.2.1⟩ s.2.2.2, true)

/-! ### History navigation -/

/-- Modelled from the spec: `text_undo` first snapshots any open work,
then moves the current pointer to the parent revision, returning the
position of the leftmost byte affected by the undone changes, or `EPOS`
at the root. -/
def text_undo (t : Text) : Text × Nat :=
  match (curRev (commitRev t)).parent with
  | none => (commitRev t, EPOS)
  | some p => (setCurrent (commitRev t) p, leftmostPos (curRev (commitRev t)))

/-- The redo target: the last child that was ever current, else the
first-created child, else none. -/
def redoTarget (t : Text) : Option Nat :=
  match (curRev t).recentChild with
  | some c => some c
  | none =>
    (List.range t.revs.length).find?
      (fun i => ((t.revs.get? i).getD default).parent = some t.cur)

/-- Modelled from the spec: `text_redo` moves to the active child (the
last child ever current, else the first-created child), returning the
leftmost position of the re-applied changes, or `EPOS` without
children. -/
def text_redo (t : Text) : Text × Nat :=
  match redoTarget (commitRev t) with
  | none => (commitRev t, EPOS)
  | some c =>
    (setCurrent (commitRev t) c,
     leftmostPos (((commitRev t).revs.get? c).getD default))

/-- Modelled from the spec: `text_earlier` steps `n` revisions back in
creation order; a no-op returning `EPOS` at the root. -/
def text_earlier (t : Text) (n : Nat) : Text × Nat :=
  if (commitRev t).cur = 0 then (commitRev t, EPOS)
  else
    (setCurrent (commitRev t) ((commitRev t).cur - n),
     leftmostPos (((commitRev t).revs.get? ((commitRev t).cur - n)).getD default))

/-- Modelled from the spec: `text_later` steps `n` revisions forward in
creation order; a no-op returning `EPOS` at the newest revision. -/
def text_later (t : Text) (n : Nat) : Text × Nat :=
  if (commitRev t).revs.length ≤ (commitRev t).cur + 1 then (commitRev t, EPOS)
  else
    (setCurrent (commitRev t) (Nat.min ((commitRev t).cur + n) ((commitRev t).revs.length - 1)),
     leftmostPos (((commitRev t).revs.get?
       (Nat.min ((commitRev t).cur + n) ((commitRev t).revs.length - 1))).getD default))

/-- The restore target: the revision with the greatest timestamp `≤ tm`
(timestamps grow with the index), else the smallest, i.e. the root. -/
def restoreTarget (t : Text) (tm : Nat) : Nat :=
  (List.range t.revs.length).foldl
    (fun best i => if ((t.revs.get? i).getD default).time ≤ tm then i else best) 0

/-- Modelled from the spec: `text_restore` moves to the revision whose
timestamp is the greatest one `≤ tm`, or the smallest (the root) when
none is. -/
def text_restore (t : Text) (tm : Nat) : Text × Nat :=
  (setCurrent (commitRev t) (restoreTarget (commitRev t) tm),
   leftmostPos (((commitRev t).revs.get? (restoreTarget (commitRev t) tm)).getD default))

/-! ### Getters -/

/-- Modelled from the spec (header comment of `text_byte_get`): set `buf`
to the byte found at `pos` and return true; if `pos` is invalid, false is
returned and `buf` is left unmodified. -/
def text_byte_get (t : Text) (pos : Nat) (buf : Nat) : Bool × Nat :=
  if pos < (text_content t).length then (true, (text_content t).getD pos 0)
  else (false, buf)

/-- Modelled from the spec: copy at most `len` bytes starting from `pos`
(the result models the bytes stored into the caller's buffer). -/
def text_bytes_get (t : Text) (pos len : Nat) : List Nat :=
  ((text_content t).drop pos).take len

/-- Modelled from the spec: allocate a NUL-terminated buffer and fill at
most `len` bytes starting at `pos`. -/
def text_bytes_alloc0 (t : Text) (pos len : Nat) : List Nat :=
  text_bytes_get t pos len ++ [0]

/-! ### Marks -/

/-- Find the piece covering `pos` together with the offset inside it. -/
def markFind (ps : List Piece) (pos : Nat) : Option (Nat × Nat) :=
  match ps with
  | [] => none
  | p :: rest => if pos < p.len then some (p.pid, pos) else markFind rest (pos - p.len)

/-- Modelled from the spec: `text_mark_set` encodes
`(piece identity, offset)` for the piece covering `pos`. -/
def text_mark_set (t : Text) (pos : Nat) : Option (Nat × Nat) :=
  markFind (curRev t).pieces pos

/-- Scan the current piece list for the mark's piece; the mark's position
is the sum of the lengths of the preceding pieces plus the offset. -/
def markPos (ps : List Piece) (m : Nat × Nat) (acc : Nat) : Nat :=
  match ps with
  | [] => EPOS
  | p :: rest => if p.pid = m.1 then acc + m.2 else markPos rest m (acc + p.len)

/-- Modelled from the spec: `text_mark_get` returns the mark's position,
or `EPOS` if no piece in the current list matches its identity. -/
def text_mark_get (t : Text) (m : Nat × Nat) : Nat :=
  markPos (curRev t).pieces m 0

/-! ### Iterator -/

/-- The iterator's observable state: its global byte position.  The block
pointers of the C struct are derivable from the position and are not
observable through the modelled operations. -/
structure Iterator where
  pos : Nat
deriving DecidableEq, Repr

def text_iterator_get (_t : Text) (pos : Nat) : Iterator := ⟨pos⟩

/-- Modelled from the spec: get the byte at the iterator position; at EOF
a NUL byte (not part of the file) is read. -/
def text_iterator_byte_get (t : Text) (it : Iterator) : Bool × Nat :=
  if it.pos < text_size t then (true, (text_content t).getD it.pos 0)
  else if it.pos = text_size t then (true, 0)
  else (false, 0)

/-- Modelled from the spec: same as byte get, but a CR immediately
followed by LF is reported as LF. -/
def text_iterator_char_get (t : Text) (it : Iterator) : Bool × Nat :=
  let r := text_iterator_byte_get t it
  if r.1 = true ∧ r.2 = 13 ∧ (text_content t).getD (it.pos + 1) 0 = 10 then (true, 10)
  else r

/-! ### Line index -/

/-- Position of the start of the `(k+1)`-th line: the position right
after the `k`-th LF, or the end of the content when there are fewer
lines. -/
def lineStartAux : List Nat → Nat → Nat
  | _, 0 => 0
  | [], _ + 1 => 0
  | b :: rest, k + 1 => 1 + lineStartAux rest (if b = 10 then k else k + 1)

/-- Modelled from the spec: `text_pos_by_lineno` for 1-based line
numbers. -/
def text_pos_by_lineno (t : Text) (n : Nat) : Nat :=
  lineStartAux (text_content t) (n - 1)

/-- Modelled from the spec: `text_lineno_by_pos` counts the line
terminators strictly before `pos`, 1-based. -/
def text_lineno_by_pos (t : Text) (pos : Nat) : Nat :=
  1 + ((text_content t).take pos).count 10

/-! ### History navigation as a small language (for the traversal
round-trip property) -/

inductive NavOp where
  | undo : NavOp
  | redo : NavOp
  | earlier : Nat → NavOp
  | later : Nat → NavOp
  | restore : Nat → NavOp
deriving DecidableEq, Repr

def navApply (t : Text) : NavOp → Text
  | .undo => (text_undo t).1
  | .redo => (text_redo t).1
  | .earlier n => (text_earlier t n).1
  | .later n => (text_later t n).1
  | .restore tm => (text_restore t tm).1

def navList (t : Text) (ops : List NavOp) : Text := ops.foldl navApply t

/-! ### Shared concrete scenarios -/

/-- The bytes of the string "abcdef". -/
def bytes_abcdef : List Nat := [97, 98, 99, 100, 101, 102]

/-- Scenario 1: empty buffer after `insert(0, "hello", 5)`. -/
def c1_t : Text := (text_insert (text_load []) 0 [104, 101, 108, 108, 111]).1

/-- Scenario 2: "abcdef" after `delete(2, 2)`. -/
def c2_t1 : Text := (text_delete (text_load bytes_abcdef) 2 2).1

/-- Scenario 5: "abcdef" after `insert(0, "XX", 2)`. -/
def c5_t1 : Text := (text_insert (text_load bytes_abcdef) 0 [88, 88]).1

/-- Scenario 5: the previous state after `delete(0, 6)`. -/
def c5_t2 : Text := (text_delete c5_t1 0 6).1

/-- Scenario 3: "abc" after the two coalescing appends of "d" and "e". -/
def c6_t2 : Text :=
  (text_insert (text_insert (text_load [97, 98, 99]) 3 [100]).1 4 [101]).1

/-- Scenario 3 continued: snapshot, then append "f". -/
def c6_t4 : Text := (text_insert (text_snapshot c6_t2) 5 [102]).1

/-- A buffer holding exactly the four bytes of "a\r\nb". -/
def c7_t : Text := text_load [97, 13, 10, 98]

/-- A buffer loaded with "line1\nline2\n". -/
def c8_t : Text := text_load [108, 105, 110, 101, 49, 10, 108, 105, 110, 101, 50, 10]

/-- Claim C2: after loading "abcdef", `text_delete(2, 2)` succeeds and the
content becomes "abef"; a following `text_undo` returns position 2 and the
content is again "abcdef"; a following `text_redo` returns position 2 and
the content is again "abef". -/
theorem text_undo_redo_spec :
    (text_delete (text_load bytes_abcdef) 2 2).2 = true ∧
    text_content c2_t1 = [97, 98, 101, 102] ∧
    (text_undo c2_t1).2 = 2 ∧
    text_content (text_undo c2_t1).1 = bytes_abcdef ∧
    (text_redo (text_undo c2_t1).1).2 = 2 ∧
    text_content (text_redo (text_undo c2_t1).1).1 = [97, 98, 101, 102] := by
  decide

/-- Claim C5: a mark set at position 3 of "abcdef" moves to 5 after
`text_insert(0, "XX", 2)`, reports `EPOS` after `text_delete(0, 6)`, and
after `text_undo` the content is restored and the mark reports 5 again. -/
theorem text_mark_track_spec :
    text_mark_set (text_load bytes_abcdef) 3 = some (0, 3) ∧
    text_mark_get c5_t1 (0, 3) = 5 ∧
    text_mark_get c5_t2 (0, 3) = EPOS ∧
    text_content (text_undo c5_t2).1 = text_content c5_t1 ∧
    text_mark_get (text_undo c5_t2).1 (0, 3) = 5 := by
  decide

/-- Claim C6: after loading "abc", `insert(3, "d", 1)` and `insert(4, "e", 1)`
coalesce into a single change on a single revision; after a snapshot and
`insert(5, "f", 1)` exactly two revisions exist beyond the root. -/
theorem text_coalesce_snapshot_spec :
    c6_t2.revs.length = 2 ∧
    ((c6_t2.revs.get? 1).getD default).changes.length = 1 ∧
    c6_t4.revs.length = 3 ∧
    text_content c6_t4 = bytes_abcdef := by
  decide

/-- Claim C7: for a buffer containing exactly "a\r\nb",
`text_iterator_char_get` at position 1 reports LF (the CR is immediately
followed by LF) while `text_iterator_byte_get` reports the raw CR byte. -/
theorem text_iterator_crlf_spec :
    text_iterator_char_get c7_t (text_iterator_get c7_t 1) = (true, 10) ∧
    text_iterator_byte_get c7_t (text_iterator_get c7_t 1) = (true, 13) := by
  decide

/-! ### Size arithmetic of the splices (claim C1) -/

theorem sumLen_nil : sumLen [] = 0 := rfl

theorem sumLen_cons (p : Piece) (ps : List Piece) :
    sumLen (p :: ps) = p.len + sumLen ps := by
  simp [sumLen]

theorem sumLen_append (a b : List Piece) :
    sumLen (a ++ b) = sumLen a + sumLen b := by
  simp [sumLen]

theorem sumLen_insSplice (ps : List Piece) (pos : Nat) (N : Piece) (fresh : Nat)
    (h : pos ≤ sumLen ps) :
    sumLen (insSplice ps pos N fresh).1 = sumLen ps + N.len := by
  induction ps generalizing pos fresh with
  | nil =>
    simp [insSplice, sumLen]
  | cons p rest ih =>
    rw [insSplice]
    by_cases h0 : pos = 0
    · simp [h0, sumLen_cons]; omega
    · by_cases h1 : p.len ≤ pos
      · have hr : pos - p.len ≤ sumLen rest := by
          rw [sumLen_cons] at h; omega
        simp [h0, h1, sumLen_cons, ih (pos - p.len) fresh hr]
        omega
      · simp [h0, h1, sumLen_cons]
        rw [sumLen_cons] at h
        omega

theorem sumLen_delTail (ps : List Piece) (len fresh : Nat)
    (h : len ≤ sumLen ps) :
    sumLen (delTail ps len fresh).1 = sumLen ps - len := by
  induction ps generalizing len fresh with
  | nil =>
    simp [sumLen] at h
    simp [delTail, sumLen, h]
  | cons p rest ih =>
    rw [delTail]
    by_cases h0 : len = 0
    · simp [h0]
    · by_cases h1 : p.len ≤ len
      · have hr : len - p.len ≤ sumLen rest := by
          rw [sumLen_cons] at h; omega
        simp [h0, h1, ih (len - p.len) fresh hr]
        rw [sumLen_cons]
        omega
      · simp [h0, h1, sumLen_cons]
        omega

theorem sumLen_delSplice (ps : List Piece) (pos len fresh : Nat)
    (h : pos + len ≤ sumLen ps) :
    sumLen (delSplice ps pos len fresh).1 = sumLen ps - len := by
  induction ps generalizing pos fresh with
  | nil =>
    simp [sumLen] at h
    simp [delSplice, sumLen, h]
  | cons p rest ih =>
    rw [delSplice]
    by_cases h1 : p.len ≤ pos
    · have hr : (pos - p.len) + len ≤ sumLen rest := by
        rw [sumLen_cons] at h; omega
      simp [h1, sumLen_cons, ih (pos - p.len) fresh hr]
      rw [sumLen_cons] at h
      omega
    · by_cases h2 : pos + len ≤ p.len
      · simp [h1, h2, sumLen_append, sumLen_cons]
        rw [sumLen_cons] at h
        split_ifs <;> simp [sumLen_cons, sumLen_nil] <;> omega
      · have hr : len - (p.len - pos) ≤ sumLen rest := by
          rw [sumLen_cons] at h; omega
        simp [h1, h2, sumLen_append,
          sumLen_delTail rest (len - (p.len - pos)) (fresh + 1) hr]
        rw [sumLen_cons] at h
        split_ifs <;> simp [sumLen_cons, sumLen_nil] <;> omega

theorem sumLen_extendLastAt (ps : List Piece) (pos pid d : Nat)
    (ps' : List Piece) (h : extendLastAt ps pos pid d = some ps') :
    sumLen ps' = sumLen ps + d := by
  induction ps generalizing pos ps' with
  | nil => simp [extendLastAt] at h
  | cons p rest ih =>
    rw [extendLastAt] at h
    by_cases h0 : pos = p.len ∧ p.pid = pid
    · simp [h0] at h
      subst h
      simp [sumLen_cons]
      omega
    · by_cases h1 : pos ≤ p.len
      · simp [h0, h1] at h
      · simp [h0, h1] at h
        obtain ⟨tl, htl, rfl⟩ := h
        simp [sumLen_cons, ih _ _ htl]
        omega

theorem cur_lt_of_changes (t : Text) (h : (curRev t).changes ≠ []) :
    t.cur < t.revs.length := by
  by_contra hge
  unfold curRev at h
  rw [List.get?_eq_none.mpr (Nat.le_of_not_lt hge)] at h
  exact h rfl

theorem pieces_curRev_setCurrent (t : Text) (i : Nat) (r : Revision)
    (hi : t.revs.get? i = some r) :
    (curRev (setCurrent t i)).pieces = r.pieces := by
  have hlt : i < t.revs.length := by
    by_contra hge
    rw [List.get?_eq_none.mpr (Nat.le_of_not_lt hge)] at hi
    cases hi
  rw [List.get?_eq_getElem?] at hi
  unfold setCurrent curRev
  split
  · simp [hi]
  · simp only [modifyRev]
    rename_i p hp
    by_cases hpi : p = i
    · subst hpi
      simp [List.getElem?_set_self hlt, hi]
    · simp [List.getElem?_set_ne hpi, hi]

theorem text_size_recordChange (t : Text) (hbuf' : List Nat) (ps : List Piece)
    (c : Change) (fresh : Nat) :
    text_size (recordChange t hbuf' ps c fresh) = sumLen ps := by
  unfold recordChange text_size
  rw [pieces_curRev_setCurrent _ _ _ (List.get?_concat_length _ _)]

theorem text_size_coalesceTry (t : Text) (pos : Nat) (data : List Nat) (t' : Text)
    (h : coalesceTry t pos data = some t') :
    text_size t' = text_size t + data.length := by
  unfold coalesceTry at h
  split at h
  · cases h
  · split at h
    · cases h
    · rename_i c hc
      split at h
      · cases h
      · rename_i np hnp
        split at h
        · split at h
          · cases h
          · rename_i ps' hext
            have hcur : t.cur < t.revs.length := by
              apply cur_lt_of_changes
              intro hnil
              rw [hnil] at hc
              cases hc
            cases h
            unfold text_size modifyRev curRev
            simp only [List.get?_eq_getElem?, List.getElem?_set_self hcur]
            simpa [curRev] using sumLen_extendLastAt _ _ _ _ _ hext
        · cases h

theorem text_insert_size (t : Text) (pos : Nat) (data : List Nat)
    (h : (text_insert t pos data).2 = true) :
    text_size (text_insert t pos data).1 = text_size t + data.length := by
  unfold text_insert at h ⊢
  by_cases h1 : text_size t < pos
  · simp [h1] at h
  · simp only [if_neg h1] at h ⊢
    by_cases h2 : data = []
    · simp [h2]
    · simp only [if_neg h2] at h ⊢
      cases hc : coalesceTry t pos data with
      | some t2 =>
        simp only [hc]
        exact text_size_coalesceTry t pos data t2 hc
      | none =>
        simp only [hc]
        rw [text_size_recordChange]
        exact sumLen_insSplice _ _ _ _ (Nat.le_of_not_lt h1)

theorem text_delete_size (t : Text) (pos len : Nat)
    (h : (text_delete t pos len).2 = true) :
    text_size (text_delete t pos len).1 = text_size t - len := by
  unfold text_delete at h ⊢
  by_cases h1 : text_size t < pos
  · simp [h1] at h
  · simp only [if_neg h1] at h ⊢
    by_cases h2 : len = 0
    · simp [h2]
    · simp only [if_neg h2] at h ⊢
      by_cases h3 : text_size t < pos + len
      · simp [h3] at h
      · simp only [if_neg h3]
        rw [text_size_recordChange]
        exact sumLen_delSplice _ _ _ _ (Nat.le_of_not_lt h3)

/-- Claim C1: for every successful edit, `text_size` changes by exactly the
edit's length — a successful `text_insert` of `len` bytes grows the size by
`len`, a successful `text_delete` of `len` bytes shrinks it by `len`; and
concretely, after loading an empty buffer and inserting "hello" at 0, the
size is 5 and `text_bytes_get(0, 5)` yields the bytes of "hello". -/
theorem text_edit_size_spec :
    (∀ (t : Text) (pos : Nat) (data : List Nat), (text_insert t pos data).2 = true →
        text_size (text_insert t pos data).1 = text_size t + data.length) ∧
    (∀ (t : Text) (pos len : Nat), (text_delete t pos len).2 = true →
        text_size (text_delete t pos len).1 = text_size t - len) ∧
    (text_size c1_t = 5 ∧ text_bytes_get c1_t 0 5 = [104, 101, 108, 108, 111]) :=
  ⟨text_insert_size, text_delete_size, by decide⟩

/-- Witness for C1: the size law evaluated at concrete inputs. -/
theorem text_edit_size_spec_witness :
    text_size (text_insert (text_load [97]) 1 [98, 99]).1 = text_size (text_load [97]) + 2 ∧
    text_size (text_delete (text_load [97, 98]) 0 1).1 = text_size (text_load [97, 98]) - 1 :=
  ⟨text_edit_size_spec.1 (text_load [97]) 1 [98, 99] (by decide),
   text_edit_size_spec.2.1 (text_load [97, 98]) 0 1 (by decide)⟩

/-- Claim C4: a failing mutating edit leaves the buffer byte-for-byte
unchanged and returns false; `text_insert` and `text_delete` fail for any
position beyond `text_size`; `text_delete` with `len = 0` at a valid
position is a successful no-op. -/
theorem text_edit_fail_spec (t : Text) (pos len : Nat) (data : List Nat) :
    ((text_insert t pos data).2 = false → (text_insert t pos data).1 = t) ∧
    ((text_delete t pos len).2 = false → (text_delete t pos len).1 = t) ∧
    (text_size t < pos → (text_insert t pos data).2 = false ∧
      (text_delete t pos len).2 = false) ∧
    (pos ≤ text_size t → text_delete t pos 0 = (t, true)) := by
  refine ⟨?_, ?_, ?_, ?_⟩
  · intro h
    unfold text_insert at h ⊢
    by_cases h1 : text_size t < pos
    · simp [h1]
    · simp only [if_neg h1] at h ⊢
      by_cases h2 : data = []
      · simp [h2] at h
      · simp only [if_neg h2] at h ⊢
        cases hc : coalesceTry t pos data <;> simp [hc] at h
  · intro h
    unfold text_delete at h ⊢
    by_cases h1 : text_size t < pos
    · simp [h1]
    · simp only [if_neg h1] at h ⊢
      by_cases h2 : len = 0
      · simp [h2] at h
      · simp only [if_neg h2] at h ⊢
        by_cases h3 : text_size t < pos + len
        · simp [h3]
        · simp [h3] at h
  · intro h1
    unfold text_insert text_delete
    simp [h1]
  · intro h1
    unfold text_delete
    simp [Nat.not_lt.mpr h1]

/-- Witness for C4: an out-of-range insert leaves the buffer unchanged, and
a zero-length delete at a valid position succeeds without any change. -/
theorem text_edit_fail_spec_witness :
    (text_insert (text_load [97]) 5 [98]).1 = text_load [97] ∧
    text_delete (text_load [97]) 0 0 = (text_load [97], true) :=
  ⟨(text_edit_fail_spec (text_load [97]) 5 0 [98]).1 (by decide),
   (text_edit_fail_spec (text_load [97]) 0 0 [98]).2.2.2 (by decide)⟩

/-! ### History navigation preserves every revision's piece list (claim C3) -/

/-- Navigation invariant: the blocks and the piece list of every revision
are untouched (only `cur`, `closed` and `recentChild` may change). -/
def NavPres (t t' : Text) : Prop :=
  t'.orig = t.orig ∧ t'.hbuf = t.hbuf ∧
    t'.revs.map Revision.pieces = t.revs.map Revision.pieces

theorem navPres_refl (t : Text) : NavPres t t := ⟨rfl, rfl, rfl⟩

theorem navPres_trans {a b c : Text} (h1 : NavPres a b) (h2 : NavPres b c) :
    NavPres a c :=
  ⟨h2.1.trans h1.1, h2.2.1.trans h1.2.1, h2.2.2.trans h1.2.2⟩

theorem map_pieces_set (l : List Revision) (i : Nat) (g : Revision → Revision)
    (hg : ∀ r, (g r).pieces = r.pieces) :
    (l.set i (g ((l.get? i).getD default))).map Revision.pieces =
      l.map Revision.pieces := by
  induction l generalizing i with
  | nil => rfl
  | cons x xs ih =>
    cases i with
    | zero => simp [hg]
    | succ n => simpa using ih n

theorem navPres_modifyRev (t : Text) (i : Nat) (g : Revision → Revision)
    (hg : ∀ r, (g r).pieces = r.pieces) : NavPres t (modifyRev t i g) :=
  ⟨rfl, rfl, map_pieces_set t.revs i g hg⟩

theorem navPres_commitRev (t : Text) : NavPres t (commitRev t) := by
  unfold commitRev
  split
  · exact navPres_modifyRev t t.cur _ (fun r => rfl)
  · exact navPres_refl t

theorem navPres_setCurrent (t : Text) (i : Nat) : NavPres t (setCurrent t i) := by
  unfold setCurrent
  split
  · exact ⟨rfl, rfl, rfl⟩
  · exact navPres_trans (⟨rfl, rfl, rfl⟩ : NavPres t { t with cur := i })
      (navPres_modifyRev _ _ _ (fun r => rfl))

theorem navPres_navApply (t : Text) (op : NavOp) : NavPres t (navApply t op) := by
  cases op with
  | undo =>
    show NavPres t (text_undo t).1
    unfold text_undo
    split
    · exact navPres_commitRev t
    · exact navPres_trans (navPres_commitRev t) (navPres_setCurrent _ _)
  | redo =>
    show NavPres t (text_redo t).1
    unfold text_redo
    split
    · exact navPres_commitRev t
    · exact navPres_trans (navPres_commitRev t) (navPres_setCurrent _ _)
  | earlier n =>
    show NavPres t (text_earlier t n).1
    unfold text_earlier
    split
    · exact navPres_commitRev t
    · exact navPres_trans (navPres_commitRev t) (navPres_setCurrent _ _)
  | later n =>
    show NavPres t (text_later t n).1
    unfold text_later
    split
    · exact navPres_commitRev t
    · exact navPres_trans (navPres_commitRev t) (navPres_setCurrent _ _)
  | restore tm =>
    show NavPres t (text_restore t tm).1
    unfold text_restore
    exact navPres_trans (navPres_commitRev t) (navPres_setCurrent _ _)

theorem navPres_navList (t : Text) (ops : List NavOp) :
    NavPres t (navList t ops) := by
  induction ops generalizing t with
  | nil => exact navPres_refl t
  | cons op rest ih =>
    exact navPres_trans (navPres_navApply t op) (ih (navApply t op))

theorem content_of_navPres (t t' : Text) (h : NavPres t t') (hc : t'.cur = t.cur) :
    text_content t' = text_content t := by
  have hp : (curRev t').pieces = (curRev t).pieces := by
    have hmap := congrArg (fun l => l[t.cur]?) h.2.2
    simp only [List.getElem?_map] at hmap
    unfold curRev
    rw [hc]
    simp only [List.get?_eq_getElem?]
    cases h1 : t'.revs[t.cur]? <;> cases h2 : t.revs[t.cur]? <;>
      rw [h1, h2] at hmap <;> simp_all
  unfold text_content
  rw [hp, h.1, h.2.1]

/-- Claim C3: every sequence of history-navigation operations (undo, redo,
earlier, later, restore) that ends with the current pointer back at the
revision it started from leaves the buffer content byte-for-byte identical
to the content before the traversal. -/
theorem nav_roundtrip_spec (t : Text) (ops : List NavOp)
    (h : (navList t ops).cur = t.cur) :
    text_content (navList t ops) = text_content t :=
  content_of_navPres t (navList t ops) (navPres_navList t ops) h

/-- A buffer with one recorded edit, used to exercise the traversal
round-trip. -/
def c3_w : Text := (text_delete (text_load [97, 98]) 0 1).1

/-- Witness for C3: undo followed by redo returns to the starting revision
and preserves the content. -/
theorem nav_roundtrip_spec_witness :
    (navList c3_w [NavOp.undo, NavOp.redo]).cur = c3_w.cur ∧
    text_content (navList c3_w [NavOp.undo, NavOp.redo]) = text_content c3_w :=
  ⟨by decide, nav_roundtrip_spec c3_w [NavOp.undo, NavOp.redo] (by decide)⟩

/-! ### Content length under well-formedness (claims C9, C10) -/

theorem pieceBytes_length (orig hbuf : List Nat) (p : Piece)
    (h : p.off + p.len ≤ (if p.hp then hbuf else orig).length) :
    (pieceBytes orig hbuf p).length = p.len := by
  unfold pieceBytes
  rw [List.length_take, List.length_drop]
  omega

theorem content_sumLen (orig hbuf : List Nat) (ps : List Piece)
    (h : ∀ p ∈ ps, p.off + p.len ≤ (if p.hp then hbuf else orig).length) :
    (ps.flatMap (pieceBytes orig hbuf)).length = sumLen ps := by
  induction ps with
  | nil => rfl
  | cons p rest ih =>
    simp only [List.flatMap_cons, List.length_append, sumLen_cons]
    rw [pieceBytes_length orig hbuf p (h p (by simp)),
      ih (fun q hq => h q (by simp [hq]))]

theorem content_length_eq (t : Text) (h : WF t) :
    (text_content t).length = text_size t := by
  obtain ⟨hcur, hall⟩ := h
  have hmem : curRev t ∈ t.revs := by
    unfold curRev
    cases hq : t.revs.get? t.cur with
    | some r => simpa using List.get?_mem hq
    | none =>
      rw [List.get?_eq_none] at hq
      omega
  exact content_sumLen t.orig t.hbuf (curRev t).pieces
    (fun p hp => ((hall _ hmem) p hp).2)

/-- Claim C9: for every position at or past `text_size`, `text_byte_get`
returns false and leaves the caller's byte untouched; for every position
inside the text it returns true together with exactly the byte at that
position. -/
theorem text_byte_get_spec (t : Text) (h : WF t) (pos buf : Nat) :
    (text_size t ≤ pos → text_byte_get t pos buf = (false, buf)) ∧
    (pos < text_size t →
      text_byte_get t pos buf = (true, (text_content t).getD pos 0)) := by
  have hl := content_length_eq t h
  constructor
  · intro hp
    unfold text_byte_get
    simp only [hl]
    rw [if_neg (Nat.not_lt.mpr hp)]
  · intro hp
    unfold text_byte_get
    simp only [hl]
    rw [if_pos hp]

/-- A two-byte buffer used to evaluate the byte getter. -/
def c9_t : Text := text_load [97, 98]

/-- Witness for C9: out-of-range and in-range reads of a concrete
buffer. -/
theorem text_byte_get_spec_witness :
    text_byte_get c9_t 5 7 = (false, 7) ∧
    text_byte_get c9_t 1 7 = (true, (text_content c9_t).getD 1 0) :=
  ⟨(text_byte_get_spec c9_t (by decide) 5 7).1 (by decide),
   (text_byte_get_spec c9_t (by decide) 1 7).2 (by decide)⟩

theorem take_eq_take_min {α : Type} (l : List α) (n : Nat) :
    l.take n = l.take (min n l.length) := by
  rcases Nat.le_total n l.length with h | h
  · rw [Nat.min_eq_left h]
  · rw [Nat.min_eq_right h, List.take_of_length_le h, List.take_length]

/-- Claim C10: for every position `pos ≤ text_size` and every `len`,
`text_bytes_alloc0` returns a buffer holding the `min(len, size - pos)`
bytes starting at `pos` followed by a terminating NUL byte; being a pure
reader it leaves the buffer content unchanged. -/
theorem text_bytes_alloc0_spec (t : Text) (h : WF t) (pos len : Nat)
    (_hp : pos ≤ text_size t) :
    text_bytes_alloc0 t pos len =
      ((text_content t).drop pos).take (min len (text_size t - pos)) ++ [0] := by
  unfold text_bytes_alloc0 text_bytes_get
  have hd : ((text_content t).drop pos).length = text_size t - pos := by
    rw [List.length_drop, content_length_eq t h]
  rw [take_eq_take_min ((text_content t).drop pos) len, hd]

/-- Witness for C10: the NUL-terminated extraction evaluated on a concrete
buffer, asking for more bytes than remain. -/
theorem text_bytes_alloc0_spec_witness :
    text_bytes_alloc0 c9_t 1 5 =
      ((text_content c9_t).drop 1).take (min 5 (text_size c9_t - 1)) ++ [0] :=
  text_bytes_alloc0_spec c9_t (by decide) 1 5 (by decide)

/-! ### Line-index round trip (claim C8) -/

theorem count_take_lineStartAux (bs : List Nat) (k : Nat) (h : k ≤ bs.count 10) :
    (bs.take (lineStartAux bs k)).count 10 = k := by
  induction bs generalizing k with
  | nil =>
    simp only [List.count_nil] at h
    have hk : k = 0 := by omega
    simp [hk, lineStartAux]
  | cons b rest ih =>
    cases k with
    | zero => simp [lineStartAux]
    | succ m =>
      rw [lineStartAux, Nat.add_comm 1 _, List.take_succ_cons]
      by_cases hb : b = 10
      · have hr : m ≤ rest.count 10 := by
          rw [List.count_cons] at h
          simp [hb] at h
          omega
        simp [hb, List.count_cons, ih _ hr]
      · have hr : m + 1 ≤ rest.count 10 := by
          rw [List.count_cons] at h
          simp [hb] at h
          omega
        simp [hb, List.count_cons, ih _ hr]

/-- Claim C8: the 1-based line index round-trips —
`text_lineno_by_pos (text_pos_by_lineno n) = n` for every valid line
number of the current content; concretely, after loading
"line1\nline2\n", `text_pos_by_lineno 2 = 6` and
`text_lineno_by_pos 7 = 2`. -/
theorem text_lineno_roundtrip_spec :
    (∀ (t : Text) (n : Nat), 1 ≤ n → n ≤ 1 + (text_content t).count 10 →
        text_lineno_by_pos t (text_pos_by_lineno t n) = n) ∧
    (text_pos_by_lineno c8_t 2 = 6 ∧ text_lineno_by_pos c8_t 7 = 2) := by
  refine ⟨?_, by decide⟩
  intro t n h1 h2
  unfold text_lineno_by_pos text_pos_by_lineno
  rw [count_take_lineStartAux _ (n - 1) (by omega)]
  omega

/-- Witness for C8: the round trip evaluated at line 3 of the concrete
two-line buffer. -/
theorem text_lineno_roundtrip_spec_witness :
    text_lineno_by_pos c8_t (text_pos_by_lineno c8_t 3) = 3 :=
  text_lineno_roundtrip_spec.1 c8_t 3 (by decide) (by decide)
